import Mathlib

/-!
Shallow embedding of `src/app.py` (GhanaNLP/akiti-translator).

Python strings are modelled as lists of characters (`PyStr`).  The ASCII
character classes below model Python's `str` methods (`split`, `strip`,
`lower`, `isupper`) and the `re` classes `\s`, `\w`, `[A-Z]`, `[a-z]`,
which agree with Python on the ASCII data this program manipulates.
The external `urbans` engine is an opaque parameter (`Engine`): it either
returns a list of translated strings or raises (`none`).
-/

set_option maxRecDepth 40000

abbrev PyStr := List Char

def str (s : String) : PyStr := s.data

/-- Python whitespace (the ASCII part of `str.split()` / `str.strip()` / `\s`). -/
def isWs (c : Char) : Bool :=
  c = ' ' || c = '\t' || c = '\n' || c = '\r' || c = '\x0B' || c = '\x0C'

/-- ASCII model of `[A-Z]` / `str.isupper` on a single character. -/
def isUpperAZ (c : Char) : Bool := 'A' ≤ c && c ≤ 'Z'

/-- ASCII model of `[a-z]`. -/
def isLowerAZ (c : Char) : Bool := 'a' ≤ c && c ≤ 'z'

/-- ASCII model of the regex word class `\w` (used by `\b` word boundaries). -/
def isWordChar (c : Char) : Bool :=
  isUpperAZ c || isLowerAZ c || ('0' ≤ c && c ≤ '9') || c = '_'

/-- ASCII `str.lower` on one character. -/
def lowerCh (c : Char) : Char :=
  if isUpperAZ c then Char.ofNat (c.toNat + 32) else c

/-- ASCII `str.upper` on one character. -/
def upperCh (c : Char) : Char :=
  if isLowerAZ c then Char.ofNat (c.toNat - 32) else c

/-- Python `s.lower()`. -/
def pyLower (s : PyStr) : PyStr := s.map lowerCh

/-- Python `"sep".join`-style join with a separator string. -/
def joinSep (sep : PyStr) : List PyStr → PyStr
  | [] => []
  | [x] => x
  | x :: y :: rest => x ++ sep ++ joinSep sep (y :: rest)

/-- Helper for `pySplit`: accumulates the current (reversed) token. -/
def splitWsAux : PyStr → PyStr → List PyStr
  | [], acc => if acc = [] then [] else [acc.reverse]
  | c :: rest, acc =>
    if isWs c then
      if acc = [] then splitWsAux rest [] else acc.reverse :: splitWsAux rest []
    else splitWsAux rest (c :: acc)

/-- Python `s.split()` (no argument): split on whitespace runs, dropping empties. -/
def pySplit (s : PyStr) : List PyStr := splitWsAux s []

/-- Python `s.strip()`. -/
def pyStrip (s : PyStr) : PyStr :=
  ((s.dropWhile isWs).reverse.dropWhile isWs).reverse

/-- Python `s.split("\n")`: split at every newline, keeping empty pieces. -/
def splitNL : PyStr → List PyStr
  | [] => [[]]
  | c :: rest =>
    if c = '\n' then [] :: splitNL rest
    else
      match splitNL rest with
      | t :: ts => (c :: t) :: ts
      | [] => [[c]]

/-- Python `"\n".join`. -/
def joinNL (ls : List PyStr) : PyStr := joinSep [ '\n'] ls

/-- Fuel-driven core of Python `s.replace(p, r)` (leftmost, non-overlapping).
The fuel is always instantiated with `s.length`, which suffices because each
step consumes at least one character of `s`. -/
def replaceAux (p r : PyStr) : Nat → PyStr → PyStr
  | _, [] => []
  | 0, s => s
  | n + 1, c :: rest =>
    if p ≠ [] ∧ p.isPrefixOf (c :: rest) = true then
      r ++ replaceAux p r n (List.drop (p.length - 1) rest)
    else c :: replaceAux p r n rest

/-- Python `s.replace(p, r)` for a non-empty pattern `p`. -/
def pyReplace (p r s : PyStr) : PyStr := replaceAux p r s.length s

/-- `tw[0].upper() + tw[1:]` guarded by non-emptiness, as in the code. -/
def capFirst : PyStr → PyStr
  | [] => []
  | c :: rest => upperCh c :: rest

/-! ### Lexicographic orders and sorting (Python `sorted` on strings / tuples) -/

/-- Generic lexicographic strict order on lists over a base comparator. -/
def lexLt (ltB : β → β → Bool) : List β → List β → Bool
  | [], [] => false
  | [], _ :: _ => true
  | _ :: _, [] => false
  | a :: as_, b :: bs =>
    if ltB a b then true
    else if ltB b a then false
    else lexLt ltB as_ bs

/-- Python character `<`: comparison by code point. -/
def charLtB (a b : Char) : Bool := decide (a.toNat < b.toNat)

/-- Python string `<`: lexicographic comparison by code point. -/
def strLt : PyStr → PyStr → Bool := lexLt charLtB

def strLe (a b : PyStr) : Bool := !strLt b a

/-- Python tuple-of-strings `<`: lexicographic over `strLt`. -/
def runLt : List PyStr → List PyStr → Bool := lexLt strLt

def runLe (a b : List PyStr) : Bool := !runLt b a

/-- Insert into a sorted list (ascending w.r.t. `le`). -/
def insertLe (le : α → α → Bool) (x : α) : List α → List α
  | [] => [x]
  | y :: ys => if le x y then x :: y :: ys else y :: insertLe le x ys

/-- Insertion sort; models Python `sorted` (after `dedup`, stability is moot). -/
def sortLe (le : α → α → Bool) : List α → List α
  | [] => []
  | x :: xs => insertLe le x (sortLe le xs)

/-! ### The proper-noun regex `_CAP_RE` and `findall`

`_CAP_RE = \b[A-Z][a-z]*(?:\s+(?:ne|and|of|de|bin|[A-Z][a-z]*))*\b`.

The scanner below implements exactly the backtracking semantics of this
pattern under `re.findall`: candidate matches start at a word boundary on an
uppercase letter; the head `[A-Z][a-z]*` and each `\s+(connector|capword)`
unit match greedily and deterministically (the five connectors and the
capitalised-word alternative are pairwise distinguishable by their first
character, and none is a prefix of another); the trailing `\b` can only fail
after the last unit, in which case the regex engine drops that unit and the
boundary at its leading whitespace succeeds — dropping more than one unit or
shortening a `[a-z]*` run can never produce a match, since a boundary never
falls between two letters.  Scanning is left-to-right and non-overlapping,
resuming after each match. -/

def connectors : List PyStr := [str "ne", str "and", str "of", str "de", str "bin"]

/-- Match `[A-Z][a-z]*` at the front, returning (matched, rest). -/
def capTake (s : PyStr) : Option (PyStr × PyStr) :=
  match s with
  | [] => none
  | c :: rest =>
    if isUpperAZ c then some (c :: rest.takeWhile isLowerAZ, rest.dropWhile isLowerAZ)
    else none

/-- Match one connector literal at the front. -/
def connTake (s : PyStr) : Option (PyStr × PyStr) :=
  match connectors.find? (fun c => c.isPrefixOf s) with
  | some c => some (c, s.drop c.length)
  | none => none

/-- Match one `\s+(connector|capword)` unit at the front. -/
def unitTake (s : PyStr) : Option (PyStr × PyStr) :=
  let ws := s.takeWhile isWs
  if ws = [] then none
  else
    let s1 := s.dropWhile isWs
    match connTake s1 with
    | some (c, r) => some (ws ++ c, r)
    | none =>
      match capTake s1 with
      | some (w, r) => some (ws ++ w, r)
      | none => none

/-- Word boundary after the previously matched (word) character. -/
def boundaryOK : PyStr → Bool
  | [] => true
  | c :: _ => !isWordChar c

/-- Greedily take units; on a failed trailing boundary drop the last unit.
Fuel is instantiated with the string length, which suffices because every
unit consumes at least one character. -/
def unitsLoopF : Nat → PyStr → PyStr → Option (PyStr × PyStr)
  | 0, _, _ => none
  | n + 1, acc, s =>
    match unitTake s with
    | none => if boundaryOK s then some (acc, s) else none
    | some (u, s') =>
      match unitsLoopF n (acc ++ u) s' with
      | some res => some res
      | none => some (acc, s)

/-- Attempt a `_CAP_RE` match at the front of `s` (boundary already checked). -/
def tryMatch (s : PyStr) : Option (PyStr × PyStr) :=
  match capTake s with
  | none => none
  | some (w, r) => unitsLoopF (r.length + 1) w r

/-- The `re.findall` scan; `prev` is the character before the current position. -/
def scanFromF : Nat → Option Char → PyStr → List PyStr
  | 0, _, _ => []
  | n + 1, prev, s =>
    match s with
    | [] => []
    | c :: rest =>
      let bnd := match prev with
        | none => true
        | some p => !isWordChar p
      if bnd && isUpperAZ c then
        match tryMatch (c :: rest) with
        | some (m, r) => m :: scanFromF n (some (m.getLastD c)) r
        | none => scanFromF n (some c) rest
      else scanFromF n (some c) rest

/-- `_CAP_RE.findall(s)`. -/
def findall (s : PyStr) : List PyStr := scanFromF s.length none s

/-- `extract_multiword_names(sentences)`: multi-token matches, deduplicated
(set semantics) and sorted (Python `sorted` on tuples of strings). -/
def extract_multiword_names (sentences : List PyStr) : List (List PyStr) :=
  sortLe runLe
    (((sentences.flatMap (fun s => (findall s).map pySplit)).filter
        (fun tok => 1 < tok.length)).dedup)

/-! ### `build_extended_grammar` -/

def stoplist : List PyStr := [str "I", str "The", str "A", str "An"]

/-- `w[0].isupper() and w not in {"I","The","A","An"}`. -/
def isPropnToken (w : PyStr) : Bool :=
  (match w with
   | [] => false
   | c :: _ => isUpperAZ c) && !(stoplist.contains w)

/-- The set comprehension `single`, deduplicated and sorted (`sorted(single)`). -/
def singleCaps (sentences : List PyStr) : List PyStr :=
  sortLe strLe (((sentences.flatMap pySplit).filter isPropnToken).dedup)

/-- `f"'{w}'"`. -/
def quoteTok (w : PyStr) : PyStr := '\'' :: (w ++ ['\''])

/-- `str(j)` for a natural number. -/
def natStr (j : Nat) : PyStr := Nat.toDigits 10 j

/-- `f"MWP_{j}"`. -/
def mwpName (j : Nat) : PyStr := str "MWP_" ++ natStr j

/-- `f"MWP_{j} -> " + " ".join(f"'{w}'" for w in mwp)`. -/
def mwpRuleLine (j : Nat) (run : List PyStr) : PyStr :=
  mwpName j ++ str " -> " ++ joinSep [' '] (run.map quoteTok)

/-- The appended `MWP_j -> ...` lines, with Python `enumerate` numbering. -/
def mwpRulesFrom (j : Nat) : List (List PyStr) → List PyStr
  | [] => []
  | run :: rest => mwpRuleLine j run :: mwpRulesFrom (j + 1) rest

def mwpRules (multi : List (List PyStr)) : List PyStr := mwpRulesFrom 0 multi

/-- The `MWP_j` names appended to the PROPN alternatives. -/
def mwpNamesFrom (j : Nat) : List (List PyStr) → List PyStr
  | [] => []
  | _ :: rest => mwpName j :: mwpNamesFrom (j + 1) rest

def mwpNames (multi : List (List PyStr)) : List PyStr := mwpNamesFrom 0 multi

/-- The list `rest` built for the PROPN right-hand side: sorted quoted single
tokens followed by the `MWP_j` references. -/
def propnAlternatives (sentences : List PyStr) : List PyStr :=
  (singleCaps sentences).map quoteTok ++ mwpNames (extract_multiword_names sentences)

/-- The replacement PROPN line `"PROPN -> " + " | ".join(rest)`. -/
def propnLineOf (sentences : List PyStr) : PyStr :=
  str "PROPN -> " ++ joinSep (str " | ") (propnAlternatives sentences)

/-- Replace the first line starting with `PROPN ->` (the `for ... break` loop). -/
def replaceFirstPropn : List PyStr → PyStr → List PyStr
  | [], _ => []
  | l :: ls, newLine =>
    if (str "PROPN ->").isPrefixOf l then newLine :: ls
    else l :: replaceFirstPropn ls newLine

/-- The line list produced by `build_extended_grammar` before the final join. -/
def build_extended_grammar_lines (base : PyStr) (sentences : List PyStr) : List PyStr :=
  replaceFirstPropn (splitNL (pyStrip base)) (propnLineOf sentences)
    ++ mwpRules (extract_multiword_names sentences)

/-- `build_extended_grammar(base, sentences)`. -/
def build_extended_grammar (base : PyStr) (sentences : List PyStr) : PyStr :=
  joinNL (build_extended_grammar_lines base sentences)

/-- The module-level `ENG_GRAMMAR` template (verbatim). -/
def ENG_GRAMMAR : String :=
  "\nS   -> NP VP | QP | PHRASE\nNP  -> PRP | DET JJ NN | DET NN | JJ NN | NN | PROPN\nVP  -> V NP | V PP | V NP PP | V | AUX V PP | AUX V\nPP  -> P DET NN | P NN | P PROPN\nQP  -> WP AUX PRP | WP V PRP NN\nPHRASE -> WP AUX PRP\nPRP -> 'I' | 'you' | 'me'\nWP  -> 'how' | 'what' | 'where'\nV   -> 'love' | 'hate' | 'going' | 'go' | 'is' | 'are' | 'loves' | 'met' | 'work' | 'visited'\nAUX -> 'am' | 'is' | 'are' | 'do'\nDET -> 'the' | 'a' | 'at'\nP   -> 'to' | 'in' | 'on' | 'at'\nJJ  -> 'good' | 'bad' | 'my' | 'your'\nNN  -> 'dogs' | 'name' | 'market' | 'dog' | 'bank'\nPROPN -> ANY_WORD\n"

/-- The 14 lines of the stripped template before its `PROPN -> ANY_WORD` line. -/
def engPrefixLines : List PyStr :=
  [str "S   -> NP VP | QP | PHRASE",
   str "NP  -> PRP | DET JJ NN | DET NN | JJ NN | NN | PROPN",
   str "VP  -> V NP | V PP | V NP PP | V | AUX V PP | AUX V",
   str "PP  -> P DET NN | P NN | P PROPN",
   str "QP  -> WP AUX PRP | WP V PRP NN",
   str "PHRASE -> WP AUX PRP",
   str "PRP -> 'I' | 'you' | 'me'",
   str "WP  -> 'how' | 'what' | 'where'",
   str "V   -> 'love' | 'hate' | 'going' | 'go' | 'is' | 'are' | 'loves' | 'met' | 'work' | 'visited'",
   str "AUX -> 'am' | 'is' | 'are' | 'do'",
   str "DET -> 'the' | 'a' | 'at'",
   str "P   -> 'to' | 'in' | 'on' | 'at'",
   str "JJ  -> 'good' | 'bad' | 'my' | 'your'",
   str "NN  -> 'dogs' | 'name' | 'market' | 'dog' | 'bank'"]

/-! ### `load_dict` -/

/-- One CSV row as seen through `csv.DictReader`: column name to cell value. -/
abbrev Row := List (PyStr × PyStr)

/-- First-match association lookup (Python `dict` access on distinct keys). -/
def lookupA : List (PyStr × PyStr) → PyStr → Option PyStr
  | [], _ => none
  | (k, v) :: rest, key => if k = key then some v else lookupA rest key

/-- Python `dict` assignment `m[k] = v`: update in place or append. -/
def dictInsert : List (PyStr × PyStr) → PyStr → PyStr → List (PyStr × PyStr)
  | [], k, v => [(k, v)]
  | (k', v') :: rest, k, v =>
    if k' = k then (k, v) :: rest else (k', v') :: dictInsert rest k v

/-- `r.get("type", "word")`. -/
def rowGetD (r : Row) (key dflt : PyStr) : PyStr :=
  match lookupA r key with
  | some v => v
  | none => dflt

/-- The state of the dictionary file, as the `try` block can observe it:
missing (`FileNotFoundError`), any other read error, or parsed rows. -/
inductive CsvFile where
  | absent : CsvFile
  | ioError : CsvFile
  | content : List Row → CsvFile

/-- The row loop of `load_dict`; `none` models an exception escaping the loop
(a row without an `english` or `twi` column raises `KeyError`). -/
def loadRows (d p : List (PyStr × PyStr)) :
    List Row → Option (List (PyStr × PyStr) × List (PyStr × PyStr))
  | [] => some (d, p)
  | r :: rest =>
    match lookupA r (str "english"), lookupA r (str "twi") with
    | some e, some t =>
      let key := pyLower (pyStrip e)
      let v := pyStrip t
      let typ := pyLower (rowGetD r (str "type") (str "word"))
      if typ = str "phrase" then loadRows d (dictInsert p key v) rest
      else loadRows (dictInsert d key v) p rest
    | _, _ => none

/-- `load_dict(csv_file)`: on any failure degrade to two empty mappings. -/
def load_dict : CsvFile → (List (PyStr × PyStr) × List (PyStr × PyStr))
  | .absent => ([], [])
  | .ioError => ([], [])
  | .content rows =>
    match loadRows [] [] rows with
    | some dp => dp
    | none => ([], [])

/-! ### The `TwiTranslator` class -/

/-- The external `urbans` translator called on a single-sentence list:
`none` models the engine raising, `some raw` the returned list. -/
abbrev Engine := PyStr → Option (List PyStr)

structure TwiTranslator where
  phrases : List (PyStr × PyStr)
  src_grammar_str : PyStr
  src_to_tgt_grammar : List (PyStr × PyStr)
  src_to_tgt_dictionary : List (PyStr × PyStr)
  grammar_str : PyStr
  sentences : List PyStr

/-- `TwiTranslator.__init__`: stores the keyword arguments and builds the
extended grammar; the word dictionary is stored as passed. -/
def TwiTranslator.init (sentences : List PyStr)
    (phrases src_to_tgt_grammar src_to_tgt_dictionary : List (PyStr × PyStr))
    (src_grammar : PyStr) : TwiTranslator :=
  { phrases := phrases
    src_grammar_str := src_grammar
    src_to_tgt_grammar := src_to_tgt_grammar
    src_to_tgt_dictionary := src_to_tgt_dictionary
    grammar_str := build_extended_grammar src_grammar sentences
    sentences := sentences }

/-- One word of `dictionary_fallback`. -/
def fallbackWord (t : TwiTranslator) (word : PyStr) : PyStr :=
  let lw := pyLower word
  match lookupA t.src_to_tgt_dictionary lw with
  | some tw => if tw ≠ [] then tw else word
  | none =>
    match lookupA t.phrases lw with
    | some v => v
    | none => word

/-- `TwiTranslator.dictionary_fallback`. -/
def TwiTranslator.dictionary_fallback (t : TwiTranslator) (sentence : PyStr) : PyStr :=
  let result := joinSep [' '] ((pySplit sentence).map (fallbackWord t))
  pyReplace (str " I") (str " Me") (pyReplace (str "I ") (str "Me ") result)

/-- The post-processing applied to a successful engine output. -/
def postprocess (tw : PyStr) : PyStr :=
  capFirst
    (pyReplace (str " i!") (str " me!")
      (pyReplace (str " i.") (str " me.")
        (pyReplace (str " i,") (str " me,")
          (pyReplace (str " i ") (str " me ")
            (pyReplace (str " I") (str " Me")
              (pyReplace (str "I ") (str "Me ") tw))))))

/-- The body of the `for s in sentences` loop of `TwiTranslator.translate`. -/
def translateOne (t : TwiTranslator) (e : Engine) (s : PyStr) : PyStr :=
  match lookupA t.phrases (pyLower s) with
  | some v => v
  | none =>
    match e s with
    | none => t.dictionary_fallback s
    | some raw =>
      postprocess (match raw with
        | [] => s
        | r :: _ => r)

/-- `TwiTranslator.translate`. -/
def TwiTranslator.translate (t : TwiTranslator) (e : Engine) (sentences : List PyStr) :
    List PyStr :=
  sentences.map (translateOne t e)

/-! ### Token-level descriptions of the pronoun rewriting (used to state C8) -/

/-- Rewrite every token `I` to `Me`. -/
def fixI (toks : List PyStr) : List PyStr :=
  toks.map (fun w => if w = str "I" then str "Me" else w)

/-- Rewrite every token `I` except the last one (the effect of
`replace("I ", "Me ")` on a space-joined token list). -/
def mapR1 : List PyStr → List PyStr
  | [] => []
  | [w] => [w]
  | w :: rest => (if w = str "I" then str "Me" else w) :: mapR1 rest

/-! ## Lemmas about the string gadgets -/

theorem replaceAux_nil (p r : PyStr) (n : Nat) : replaceAux p r n [] = [] := by
  cases n <;> rfl

theorem replaceAux_congr (p r : PyStr) :
    ∀ n m (s : PyStr), s.length ≤ n → s.length ≤ m → replaceAux p r n s = replaceAux p r m s := by
  intro n
  induction n with
  | zero =>
    intro m s hn _
    have : s = [] := List.eq_nil_of_length_eq_zero (Nat.le_zero.mp hn)
    subst this
    simp [replaceAux_nil]
  | succ n ih =>
    intro m s hn hm
    cases s with
    | nil => simp [replaceAux_nil]
    | cons c rest =>
      cases m with
      | zero => simp at hm
      | succ m' =>
        simp only [replaceAux]
        by_cases h : p ≠ [] ∧ p.isPrefixOf (c :: rest) = true
        · rw [if_pos h, if_pos h]
          have hlen : (List.drop (p.length - 1) rest).length ≤ rest.length := by
            rw [List.length_drop]; omega
          have h1 : (List.drop (p.length - 1) rest).length ≤ n := by
            simp only [List.length_cons] at hn; omega
          have h2 : (List.drop (p.length - 1) rest).length ≤ m' := by
            simp only [List.length_cons] at hm; omega
          rw [ih m' _ h1 h2]
        · rw [if_neg h, if_neg h]
          have h1 : rest.length ≤ n := by simp only [List.length_cons] at hn; omega
          have h2 : rest.length ≤ m' := by simp only [List.length_cons] at hm; omega
          rw [ih m' _ h1 h2]

theorem pyReplace_nil (p r : PyStr) : pyReplace p r [] = [] := rfl

theorem pyReplace_cons_neg {p : PyStr} {c : Char} {t : PyStr} (r : PyStr)
    (h : p.isPrefixOf (c :: t) = false) :
    pyReplace p r (c :: t) = c :: pyReplace p r t := by
  show replaceAux p r (c :: t).length (c :: t) = c :: replaceAux p r t.length t
  simp only [List.length_cons, replaceAux]
  rw [if_neg (by simp [h])]

theorem isPrefixOf_append_self (p t : PyStr) : p.isPrefixOf (p ++ t) = true := by
  induction p with
  | nil => simp [List.isPrefixOf]
  | cons a as ih => simp [List.isPrefixOf, ih]

theorem isPrefixOf_iff {p s : PyStr} : p.isPrefixOf s = true ↔ ∃ t, s = p ++ t := by
  induction p generalizing s with
  | nil => simp [List.isPrefixOf]
  | cons a as ih =>
    cases s with
    | nil => simp [List.isPrefixOf]
    | cons b bs =>
      simp only [List.isPrefixOf, Bool.and_eq_true, beq_iff_eq, ih, List.cons_append,
        List.cons.injEq]
      constructor
      · rintro ⟨rfl, t, rfl⟩; exact ⟨t, rfl, rfl⟩
      · rintro ⟨t, rfl, rfl⟩; exact ⟨rfl, t, rfl⟩

theorem pyReplace_pat_head {p : PyStr} (r : PyStr) (hp : p ≠ []) (t : PyStr) :
    pyReplace p r (p ++ t) = r ++ pyReplace p r t := by
  cases p with
  | nil => exact absurd rfl hp
  | cons a p' =>
    have hpre : (a :: p').isPrefixOf (a :: (p' ++ t)) = true := by
      simp [List.isPrefixOf, isPrefixOf_append_self]
    show replaceAux (a :: p') r ((a :: p') ++ t).length ((a :: p') ++ t) = _
    simp only [List.cons_append, List.length_cons, replaceAux, List.append_eq,
      Nat.add_sub_cancel]
    rw [if_pos ⟨hp, hpre⟩]
    rw [List.drop_left p' t]
    have : t.length ≤ (p' ++ t).length := by simp [List.length_append]
    exact congrArg (r ++ ·) (replaceAux_congr _ _ _ _ _ this le_rfl)

theorem pyReplace_ne_nil {p r s : PyStr} (hs : s ≠ []) (hr : r ≠ []) :
    pyReplace p r s ≠ [] := by
  cases s with
  | nil => exact absurd rfl hs
  | cons c t =>
    show replaceAux p r (c :: t).length (c :: t) ≠ []
    simp only [List.length_cons, replaceAux]
    by_cases h : p ≠ [] ∧ p.isPrefixOf (c :: t) = true
    · rw [if_pos h]; simp [hr]
    · rw [if_neg h]; simp

theorem pyReplace_noop_head {c : Char} {p' s : PyStr} (r : PyStr) (h : c ∉ s) :
    pyReplace (c :: p') r s = s := by
  induction s with
  | nil => exact pyReplace_nil _ _
  | cons d t ih =>
    have hd : c ≠ d := fun he => h (he ▸ List.mem_cons_self d t)
    have hpre : (c :: p').isPrefixOf (d :: t) = false := by
      simp [List.isPrefixOf, hd]
    rw [pyReplace_cons_neg r hpre, ih (fun hm => h (List.mem_cons_of_mem d hm))]

theorem pyReplace_noop_second {a b : Char} {p' s : PyStr} (r : PyStr) (h : b ∉ s) :
    pyReplace (a :: b :: p') r s = s := by
  induction s with
  | nil => exact pyReplace_nil _ _
  | cons d t ih =>
    have hpre : (a :: b :: p').isPrefixOf (d :: t) = false := by
      cases hp : (a :: b :: p').isPrefixOf (d :: t) with
      | false => rfl
      | true =>
        obtain ⟨u, hu⟩ := isPrefixOf_iff.mp hp
        simp only [List.cons_append, List.cons.injEq] at hu
        exact absurd (hu.2 ▸ List.mem_cons_of_mem d (hu.2 ▸ (by
          rw [hu.2]; exact List.mem_cons_self b _))) h
    rw [pyReplace_cons_neg r hpre, ih (fun hm => h (List.mem_cons_of_mem d hm))]

theorem pyReplace_append_left {c : Char} {p' A : PyStr} (r u : PyStr) (h : c ∉ A) :
    pyReplace (c :: p') r (A ++ u) = A ++ pyReplace (c :: p') r u := by
  induction A with
  | nil => rfl
  | cons d A' ih =>
    have hd : c ≠ d := fun he => h (he ▸ List.mem_cons_self d A')
    have hpre : (c :: p').isPrefixOf (d :: (A' ++ u)) = false := by
      simp [List.isPrefixOf, hd]
    rw [List.cons_append, pyReplace_cons_neg r hpre,
      ih (fun hm => h (List.mem_cons_of_mem d hm)), List.cons_append]

theorem joinSep_ne_nil {sep x : PyStr} {xs : List PyStr} (hx : x ≠ []) :
    joinSep sep (x :: xs) ≠ [] := by
  cases xs with
  | nil => exact hx
  | cons y rest => simp [joinSep, hx]

theorem head?_joinSep {sep x : PyStr} {xs : List PyStr} (hx : x ≠ []) :
    (joinSep sep (x :: xs)).head? = x.head? := by
  cases xs with
  | nil => rfl
  | cons y rest =>
    cases x with
    | nil => exact absurd rfl hx
    | cons c t => simp [joinSep]

theorem not_mem_joinSep {c : Char} {sep : PyStr} (hsep : c ∉ sep) :
    ∀ {l : List PyStr}, (∀ x ∈ l, c ∉ x) → c ∉ joinSep sep l := by
  intro l
  induction l with
  | nil => intro _; simp [joinSep]
  | cons x xs ih =>
    intro h
    cases xs with
    | nil => exact h x (List.mem_cons_self _ _)
    | cons y rest =>
      simp only [joinSep, List.append_assoc, List.mem_append]
      push_neg
      refine ⟨h x (List.mem_cons_self _ _), hsep, ?_⟩
      exact ih (fun z hz => h z (List.mem_cons_of_mem _ hz))

theorem joinSep_append_single {sep y : PyStr} :
    ∀ {xs : List PyStr}, xs ≠ [] → joinSep sep (xs ++ [y]) = joinSep sep xs ++ sep ++ y := by
  intro xs
  induction xs with
  | nil => intro h; exact absurd rfl h
  | cons x rest ih =>
    intro _
    cases rest with
    | nil => simp [joinSep]
    | cons z rest' =>
      have : joinSep sep ((x :: z :: rest') ++ [y])
          = x ++ sep ++ joinSep sep ((z :: rest') ++ [y]) := by
        simp [joinSep]
      rw [this, ih (by simp), joinSep]
      simp [List.append_assoc]

theorem getLast?_append_right {s t : PyStr} (ht : t ≠ []) :
    (s ++ t).getLast? = t.getLast? := by
  rw [← List.head?_reverse, ← List.head?_reverse, List.reverse_append]
  cases h : t.reverse with
  | nil => exact absurd (by simpa using congrArg List.reverse h) ht
  | cons c u => simp

theorem splitNL_ne_nil (s : PyStr) : splitNL s ≠ [] := by
  induction s with
  | nil => simp [splitNL]
  | cons c rest ih =>
    by_cases h : c = '\n'
    · simp [splitNL, h]
    · simp only [splitNL, if_neg h]
      cases hs : splitNL rest with
      | nil => exact absurd hs ih
      | cons t ts => simp

theorem joinNL_splitNL (s : PyStr) : joinNL (splitNL s) = s := by
  induction s with
  | nil => rfl
  | cons c rest ih =>
    by_cases h : c = '\n'
    · subst h
      simp only [splitNL, if_pos rfl]
      cases hs : splitNL rest with
      | nil => exact absurd hs (splitNL_ne_nil rest)
      | cons t ts =>
        rw [hs] at ih
        show joinSep ['\n'] ([] :: t :: ts) = '\n' :: rest
        rw [joinSep]
        simpa [joinNL] using ih
    · simp only [splitNL, if_neg h]
      cases hs : splitNL rest with
      | nil => exact absurd hs (splitNL_ne_nil rest)
      | cons t ts =>
        rw [hs] at ih
        cases ts with
        | nil =>
          show joinSep ['\n'] [c :: t] = c :: rest
          simpa [joinNL, joinSep] using congrArg (c :: ·) ih
        | cons u ts' =>
          show joinSep ['\n'] ((c :: t) :: u :: ts') = c :: rest
          rw [joinSep]
          have : joinSep ['\n'] (t :: u :: ts') = rest := by simpa [joinNL] using ih
          rw [joinSep] at this
          simp only [List.cons_append]
          rw [this]

theorem splitNL_no_newline {s : PyStr} (h : '\n' ∉ s) : splitNL s = [s] := by
  induction s with
  | nil => rfl
  | cons c rest ih =>
    have hc : c ≠ '\n' := fun he => h (he ▸ List.mem_cons_self c rest)
    simp only [splitNL, if_neg hc, ih (fun hm => h (List.mem_cons_of_mem c hm))]

theorem splitNL_append {x : PyStr} (u : PyStr) (h : '\n' ∉ x) :
    splitNL (x ++ '\n' :: u) = x :: splitNL u := by
  induction x with
  | nil => simp [splitNL]
  | cons c x' ih =>
    have hc : c ≠ '\n' := fun he => h (he ▸ List.mem_cons_self c x')
    have ih' := ih (fun hm => h (List.mem_cons_of_mem c hm))
    simp only [List.cons_append, splitNL, if_neg hc, List.append_eq, ih']

theorem splitNL_joinNL : ∀ {ls : List PyStr}, ls ≠ [] → (∀ l ∈ ls, '\n' ∉ l) →
    splitNL (joinNL ls) = ls := by
  intro ls
  induction ls with
  | nil => intro h _; exact absurd rfl h
  | cons x xs ih =>
    intro _ h
    cases xs with
    | nil => exact splitNL_no_newline (h x (List.mem_cons_self _ _))
    | cons y rest =>
      have : joinNL (x :: y :: rest) = x ++ '\n' :: joinNL (y :: rest) := by
        show joinSep ['\n'] (x :: y :: rest) = _
        rw [joinSep]
        simp [joinNL, List.append_assoc]
      rw [this, splitNL_append _ (h x (List.mem_cons_self _ _)),
        ih (by simp) (fun z hz => h z (List.mem_cons_of_mem _ hz))]

theorem pySplit_ne_nil : ∀ (s acc : PyStr), ∀ w ∈ splitWsAux s acc, w ≠ [] := by
  intro s
  induction s with
  | nil =>
    intro acc w hw
    by_cases h : acc = [] <;> simp [splitWsAux, h] at hw
    · subst hw; simpa using h
  | cons c rest ih =>
    intro acc w hw
    by_cases h : isWs c
    · by_cases ha : acc = []
      · simp only [splitWsAux, if_pos h, if_pos ha] at hw
        exact ih [] w hw
      · simp only [splitWsAux, if_pos h, if_neg ha, List.mem_cons] at hw
        rcases hw with rfl | hw
        · simpa using ha
        · exact ih [] w hw
    · simp only [splitWsAux, if_neg h] at hw
      exact ih (c :: acc) w hw

theorem pySplit_no_ws :
    ∀ (s acc : PyStr), (∀ c ∈ acc, isWs c = false) →
      ∀ w ∈ splitWsAux s acc, ∀ c ∈ w, isWs c = false := by
  intro s
  induction s with
  | nil =>
    intro acc hacc w hw
    by_cases h : acc = [] <;> simp [splitWsAux, h] at hw
    · subst hw; intro c hc; exact hacc c (by simpa using hc)
  | cons c rest ih =>
    intro acc hacc w hw
    by_cases h : isWs c
    · by_cases ha : acc = []
      · simp only [splitWsAux, if_pos h, if_pos ha] at hw
        exact ih [] (by simp) w hw
      · simp only [splitWsAux, if_pos h, if_neg ha, List.mem_cons] at hw
        rcases hw with rfl | hw
        · intro d hd; exact hacc d (by simpa using hd)
        · exact ih [] (by simp) w hw
    · simp only [splitWsAux, if_neg h] at hw
      refine ih (c :: acc) ?_ w hw
      intro d hd
      rcases List.mem_cons.mp hd with rfl | hd
      · simpa using h
      · exact hacc d hd

theorem dropWhile_cons_false {p : Char → Bool} {c : Char} (t : List Char) (h : p c = false) :
    List.dropWhile p (c :: t) = c :: t := by
  simp [List.dropWhile_cons, h]

theorem pyStrip_eq_self {s : PyStr}
    (h1 : ∀ c, s.head? = some c → isWs c = false)
    (h2 : ∀ c, s.getLast? = some c → isWs c = false) :
    pyStrip s = s := by
  cases s with
  | nil => rfl
  | cons c t =>
    have hc : isWs c = false := h1 c rfl
    show (((c :: t).dropWhile isWs).reverse.dropWhile isWs).reverse = c :: t
    rw [dropWhile_cons_false t hc]
    cases hr : (c :: t).reverse with
    | nil => simp at hr
    | cons d u =>
      have hd : (c :: t).getLast? = some d := by
        rw [← List.head?_reverse, hr]; rfl
      rw [dropWhile_cons_false u (h2 d hd), ← hr, List.reverse_reverse]

/-! ## Order and sorting lemmas -/

theorem charLtB_asymm {a b : Char} (h : charLtB a b = true) : charLtB b a = false := by
  simp only [charLtB, decide_eq_true_eq] at h
  simp only [charLtB, decide_eq_false_iff_not]
  omega

theorem charLtB_conn {a b : Char} (h : a ≠ b) : charLtB a b = true ∨ charLtB b a = true := by
  have hne : a.toNat ≠ b.toNat := by
    intro he
    exact h (by rw [← Char.ofNat_toNat a, ← Char.ofNat_toNat b, he])
  simp only [charLtB, decide_eq_true_eq]
  omega

theorem charLtB_trans {a b c : Char} (h1 : charLtB a b = true) (h2 : charLtB b c = true) :
    charLtB a c = true := by
  simp only [charLtB, decide_eq_true_eq] at h1 h2 ⊢
  omega

theorem lexLt_asymm {ltB : β → β → Bool}
    (hB : ∀ a b, ltB a b = true → ltB b a = false) :
    ∀ {x y : List β}, lexLt ltB x y = true → lexLt ltB y x = false := by
  intro x
  induction x with
  | nil =>
    intro y h
    cases y with
    | nil => simp [lexLt] at h
    | cons b bs => simp [lexLt]
  | cons a as_ ih =>
    intro y h
    cases y with
    | nil => simp [lexLt] at h
    | cons b bs =>
      simp only [lexLt] at h ⊢
      by_cases hab : ltB a b = true
      · rw [hB a b hab]
        rw [if_neg (by simp [hB a b hab])]  -- ltB b a = false
        rw [if_pos hab]
      · rw [if_neg hab] at h
        by_cases hba : ltB b a = true
        · rw [if_pos hba] at h; exact absurd h (by simp)
        · rw [if_neg hba] at h
          rw [if_neg hba, if_neg hab]
          exact ih h

theorem lexLt_conn {ltB : β → β → Bool}
    (hB : ∀ a b, a ≠ b → ltB a b = true ∨ ltB b a = true) :
    ∀ {x y : List β}, x ≠ y → lexLt ltB x y = true ∨ lexLt ltB y x = true := by
  intro x
  induction x with
  | nil =>
    intro y h
    cases y with
    | nil => exact absurd rfl h
    | cons b bs => left; simp [lexLt]
  | cons a as_ ih =>
    intro y h
    cases y with
    | nil => right; simp [lexLt]
    | cons b bs =>
      by_cases hab : a = b
      · subst hab
        have hne : as_ ≠ bs := fun he => h (he ▸ rfl)
        rcases ih hne with h1 | h1
        · left
          simp only [lexLt]
          by_cases haa : ltB a a = true
          · rw [if_pos haa]
          · rw [if_neg haa, if_neg haa]; exact h1
        · right
          simp only [lexLt]
          by_cases haa : ltB a a = true
          · rw [if_pos haa]
          · rw [if_neg haa, if_neg haa]; exact h1
      · rcases hB a b hab with h1 | h1
        · left; simp [lexLt, h1]
        · right; simp [lexLt, h1]

theorem lexLt_irrefl {ltB : β → β → Bool}
    (hBa : ∀ a b, ltB a b = true → ltB b a = false) (a : β) : ltB a a = false := by
  cases h : ltB a a with
  | false => rfl
  | true => have := hBa a a h; rw [h] at this; exact this

theorem lexLt_cons {ltB : β → β → Bool} {a b : β} {as_ bs : List β} :
    lexLt ltB (a :: as_) (b :: bs) = true ↔
      ltB a b = true ∨ (ltB a b = false ∧ ltB b a = false ∧ lexLt ltB as_ bs = true) := by
  simp only [lexLt]
  by_cases h1 : ltB a b = true
  · simp [h1]
  · have h1' : ltB a b = false := by simpa using h1
    by_cases h2 : ltB b a = true
    · simp [h1', h2]
    · have h2' : ltB b a = false := by simpa using h2
      simp [h1', h2']

theorem lexLt_trans [DecidableEq β] {ltB : β → β → Bool}
    (hBt : ∀ a b c, ltB a b = true → ltB b c = true → ltB a c = true)
    (hBa : ∀ a b, ltB a b = true → ltB b a = false)
    (hBc : ∀ a b, a ≠ b → ltB a b = true ∨ ltB b a = true) :
    ∀ {x y z : List β}, lexLt ltB x y = true → lexLt ltB y z = true →
      lexLt ltB x z = true := by
  have eqOf : ∀ a b : β, ltB a b = false → ltB b a = false → a = b := by
    intro a b h1 h2
    by_contra hne
    rcases hBc a b hne with h | h
    · rw [h] at h1; exact absurd h1 (by simp)
    · rw [h] at h2; exact absurd h2 (by simp)
  intro x
  induction x with
  | nil =>
    intro y z h1 h2
    cases y with
    | nil => simp [lexLt] at h1
    | cons b bs =>
      cases z with
      | nil => simp [lexLt] at h2
      | cons c cs => simp [lexLt]
  | cons a as_ ih =>
    intro y z h1 h2
    cases y with
    | nil => simp [lexLt] at h1
    | cons b bs =>
      cases z with
      | nil => simp [lexLt] at h2
      | cons c cs =>
        rcases lexLt_cons.mp h1 with hab | ⟨hab1, hab2, hab3⟩
        · rcases lexLt_cons.mp h2 with hbc | ⟨hbc1, hbc2, hbc3⟩
          · exact lexLt_cons.mpr (Or.inl (hBt a b c hab hbc))
          · have : b = c := eqOf b c hbc1 hbc2
            subst this
            exact lexLt_cons.mpr (Or.inl hab)
        · have hb : a = b := eqOf a b hab1 hab2
          subst hb
          rcases lexLt_cons.mp h2 with hbc | ⟨hbc1, hbc2, hbc3⟩
          · exact lexLt_cons.mpr (Or.inl hbc)
          · have hc : a = c := eqOf a c hbc1 hbc2
            subst hc
            exact lexLt_cons.mpr
              (Or.inr ⟨lexLt_irrefl hBa a, lexLt_irrefl hBa a, ih hab3 hbc3⟩)

theorem strLt_asymm {a b : PyStr} (h : strLt a b = true) : strLt b a = false :=
  lexLt_asymm (fun _ _ hx => charLtB_asymm hx) h

theorem strLt_conn {a b : PyStr} (h : a ≠ b) : strLt a b = true ∨ strLt b a = true :=
  lexLt_conn (fun _ _ hx => charLtB_conn hx) h

theorem strLt_trans {a b c : PyStr} (h1 : strLt a b = true) (h2 : strLt b c = true) :
    strLt a c = true :=
  @lexLt_trans Char _ charLtB (fun _ _ _ hx hy => charLtB_trans hx hy)
    (fun _ _ hx => charLtB_asymm hx) (fun _ _ hx => charLtB_conn hx) a b c h1 h2

theorem runLt_asymm {a b : List PyStr} (h : runLt a b = true) : runLt b a = false :=
  lexLt_asymm (fun _ _ hx => strLt_asymm hx) h

theorem runLt_conn {a b : List PyStr} (h : a ≠ b) : runLt a b = true ∨ runLt b a = true :=
  lexLt_conn (fun _ _ hx => strLt_conn hx) h

theorem runLt_trans {a b c : List PyStr} (h1 : runLt a b = true) (h2 : runLt b c = true) :
    runLt a c = true :=
  @lexLt_trans PyStr _ strLt (fun _ _ _ hx hy => strLt_trans hx hy)
    (fun _ _ hx => strLt_asymm hx) (fun _ _ hx => strLt_conn hx) a b c h1 h2

/-- `a ≤ b` derived from an asymmetric strict order is total. -/
theorem leOfLt_total {lt : α → α → Bool} (hAs : ∀ a b, lt a b = true → lt b a = false)
    (a b : α) : (!lt b a) = true ∨ (!lt a b) = true := by
  cases h : lt b a with
  | false => left; simp
  | true => right; simp [hAs b a h]

/-- `a ≤ b` derived from an asymmetric, connex, transitive strict order is
transitive. -/
theorem leOfLt_trans [DecidableEq α] {lt : α → α → Bool}
    (hT : ∀ a b c, lt a b = true → lt b c = true → lt a c = true)
    (hC : ∀ a b, a ≠ b → lt a b = true ∨ lt b a = true)
    {a b c : α} (h1 : (!lt b a) = true) (h2 : (!lt c b) = true) : (!lt c a) = true := by
  simp only [Bool.not_eq_true'] at h1 h2 ⊢
  by_contra hca
  have hca : lt c a = true := by simpa using hca
  by_cases hcb : c = b
  · subst hcb; rw [hca] at h1; exact absurd h1 (by simp)
  · rcases hC c b hcb with h | h
    · rw [h] at h2; exact absurd h2 (by simp)
    · rw [hT b c a h hca] at h1; exact absurd h1 (by simp)

theorem mem_insertLe {le : α → α → Bool} {x a : α} :
    ∀ {l : List α}, a ∈ insertLe le x l ↔ a = x ∨ a ∈ l := by
  intro l
  induction l with
  | nil => simp [insertLe]
  | cons y ys ih =>
    simp only [insertLe]
    by_cases h : le x y = true
    · simp [h]
    · rw [if_neg h]
      simp only [List.mem_cons, ih]
      tauto

theorem insertLe_perm (le : α → α → Bool) (x : α) :
    ∀ l : List α, (insertLe le x l).Perm (x :: l) := by
  intro l
  induction l with
  | nil => simp [insertLe]
  | cons y ys ih =>
    simp only [insertLe]
    by_cases h : le x y = true
    · rw [if_pos h]
    · rw [if_neg h]
      exact (List.Perm.cons y ih).trans (List.Perm.swap x y ys)

theorem sortLe_perm (le : α → α → Bool) : ∀ l : List α, (sortLe le l).Perm l := by
  intro l
  induction l with
  | nil => simp [sortLe]
  | cons x xs ih =>
    exact (insertLe_perm le x (sortLe le xs)).trans (List.Perm.cons x ih)

theorem mem_sortLe {le : α → α → Bool} {a : α} {l : List α} :
    a ∈ sortLe le l ↔ a ∈ l :=
  (sortLe_perm le l).mem_iff

theorem pairwise_insertLe {le : α → α → Bool}
    (htot : ∀ a b, le a b = true ∨ le b a = true)
    (htr : ∀ a b c, le a b = true → le b c = true → le a c = true)
    (x : α) :
    ∀ {l : List α}, List.Pairwise (fun a b => le a b = true) l →
      List.Pairwise (fun a b => le a b = true) (insertLe le x l) := by
  intro l
  induction l with
  | nil => intro _; simp [insertLe]
  | cons y ys ih =>
    intro h
    rcases List.pairwise_cons.mp h with ⟨hy, hys⟩
    simp only [insertLe]
    by_cases hxy : le x y = true
    · rw [if_pos hxy]
      refine List.pairwise_cons.mpr ⟨?_, h⟩
      intro z hz
      rcases List.mem_cons.mp hz with rfl | hz
      · exact hxy
      · exact htr x y z hxy (hy z hz)
    · rw [if_neg hxy]
      have hyx : le y x = true := by
        rcases htot x y with h1 | h1
        · exact absurd h1 hxy
        · exact h1
      refine List.pairwise_cons.mpr ⟨?_, ih hys⟩
      intro z hz
      rcases mem_insertLe.mp hz with rfl | hz
      · exact hyx
      · exact hy z hz

theorem pairwise_sortLe {le : α → α → Bool}
    (htot : ∀ a b, le a b = true ∨ le b a = true)
    (htr : ∀ a b c, le a b = true → le b c = true → le a c = true)
    (l : List α) :
    List.Pairwise (fun a b => le a b = true) (sortLe le l) := by
  induction l with
  | nil => simp [sortLe]
  | cons x xs ih => exact pairwise_insertLe htot htr x ih

theorem nodup_sortLe {le : α → α → Bool} {l : List α} (h : l.Nodup) :
    (sortLe le l).Nodup :=
  ((sortLe_perm le l).symm.nodup h)

theorem strLe_total (a b : PyStr) : strLe a b = true ∨ strLe b a = true :=
  @leOfLt_total PyStr strLt (fun _ _ h => strLt_asymm h) a b

theorem strLe_trans {a b c : PyStr} (h1 : strLe a b = true) (h2 : strLe b c = true) :
    strLe a c = true :=
  @leOfLt_trans PyStr _ strLt (fun _ _ _ hx hy => strLt_trans hx hy)
    (fun _ _ hx => strLt_conn hx) a b c h1 h2

theorem runLe_total (a b : List PyStr) : runLe a b = true ∨ runLe b a = true :=
  @leOfLt_total (List PyStr) runLt (fun _ _ h => runLt_asymm h) a b

theorem runLe_trans {a b c : List PyStr} (h1 : runLe a b = true) (h2 : runLe b c = true) :
    runLe a c = true :=
  @leOfLt_trans (List PyStr) _ runLt (fun _ _ _ hx hy => runLt_trans hx hy)
    (fun _ _ hx => runLt_conn hx) a b c h1 h2

theorem mem_singleCaps {ss : List PyStr} {s w : PyStr}
    (hs : s ∈ ss) (hw : w ∈ pySplit s) (hcap : isPropnToken w = true) :
    w ∈ singleCaps ss :=
  mem_sortLe.mpr (List.mem_dedup.mpr
    (List.mem_filter.mpr ⟨List.mem_flatMap.mpr ⟨s, hs, hw⟩, hcap⟩))

theorem nodup_singleCaps (ss : List PyStr) : (singleCaps ss).Nodup :=
  nodup_sortLe (List.nodup_dedup _)

theorem pairwise_lt_singleCaps (ss : List PyStr) :
    List.Pairwise (fun a b => strLt a b = true) (singleCaps ss) := by
  have hp : List.Pairwise (fun a b => strLe a b = true) (singleCaps ss) :=
    pairwise_sortLe strLe_total (fun _ _ _ h1 h2 => strLe_trans h1 h2) _
  have hnd : (singleCaps ss).Nodup := nodup_singleCaps ss
  refine (hp.and hnd).imp ?_
  intro a b hab
  rcases strLt_conn hab.2 with h | h
  · exact h
  · have h1 := hab.1
    rw [show strLe a b = !strLt b a from rfl, h] at h1
    exact absurd h1 (by simp)

theorem nodup_extract (ss : List PyStr) : (extract_multiword_names ss).Nodup :=
  nodup_sortLe (List.nodup_dedup _)

theorem pairwise_lt_extract (ss : List PyStr) :
    List.Pairwise (fun a b => runLt a b = true) (extract_multiword_names ss) := by
  have hp : List.Pairwise (fun a b => runLe a b = true) (extract_multiword_names ss) :=
    pairwise_sortLe runLe_total (fun _ _ _ h1 h2 => runLe_trans h1 h2) _
  have hnd := nodup_extract ss
  refine (hp.and hnd).imp ?_
  intro a b hab
  rcases runLt_conn hab.2 with h | h
  · exact h
  · have h1 := hab.1
    rw [show runLe a b = !runLt b a from rfl, h] at h1
    exact absurd h1 (by simp)

/-! ## Structure of the extended grammar -/

theorem replaceFirstPropn_id {ls : List PyStr} (nl : PyStr)
    (h : ∀ l ∈ ls, (str "PROPN ->").isPrefixOf l = false) :
    replaceFirstPropn ls nl = ls := by
  induction ls with
  | nil => rfl
  | cons x xs ih =>
    simp only [replaceFirstPropn]
    rw [if_neg (by simp [h x (List.mem_cons_self _ _)])]
    rw [ih (fun l hl => h l (List.mem_cons_of_mem _ hl))]

theorem replaceFirstPropn_append {pre : List PyStr} {x : PyStr} (rest : List PyStr)
    (nl : PyStr)
    (hpre : ∀ l ∈ pre, (str "PROPN ->").isPrefixOf l = false)
    (hx : (str "PROPN ->").isPrefixOf x = true) :
    replaceFirstPropn (pre ++ x :: rest) nl = pre ++ nl :: rest := by
  induction pre with
  | nil => simp [replaceFirstPropn, hx]
  | cons y ys ih =>
    simp only [List.cons_append, replaceFirstPropn, List.append_eq]
    rw [if_neg (by simp [hpre y (List.mem_cons_self _ _)])]
    rw [ih (fun l hl => hpre l (List.mem_cons_of_mem _ hl))]

theorem eng_split :
    splitNL (pyStrip (str ENG_GRAMMAR)) = engPrefixLines ++ [str "PROPN -> ANY_WORD"] := by
  decide

theorem buildLines_eng (ss : List PyStr) :
    build_extended_grammar_lines (str ENG_GRAMMAR) ss =
      engPrefixLines ++ propnLineOf ss :: mwpRules (extract_multiword_names ss) := by
  unfold build_extended_grammar_lines
  rw [eng_split, replaceFirstPropn_append [] (propnLineOf ss) (by decide) (by decide)]
  simp

theorem mwpRulesFrom_mem {run : List PyStr} :
    ∀ (multi : List (List PyStr)) (k : Nat), run ∈ multi →
      ∃ j, multi[j]? = some run ∧ mwpRuleLine (k + j) run ∈ mwpRulesFrom k multi := by
  intro multi
  induction multi with
  | nil => intro k h; simp at h
  | cons r rest ih =>
    intro k h
    rcases List.mem_cons.mp h with rfl | h
    · exact ⟨0, by simp, by simp [mwpRulesFrom]⟩
    · obtain ⟨j, hj1, hj2⟩ := ih (k + 1) h
      refine ⟨j + 1, by simpa using hj1, ?_⟩
      simp only [mwpRulesFrom, List.mem_cons]
      right
      have harith : k + (j + 1) = (k + 1) + j := by omega
      rw [harith]
      exact hj2

theorem mwpNamesFrom_mem :
    ∀ (multi : List (List PyStr)) (k j : Nat), j < multi.length →
      mwpName (k + j) ∈ mwpNamesFrom k multi := by
  intro multi
  induction multi with
  | nil => intro k j h; simp at h
  | cons r rest ih =>
    intro k j h
    cases j with
    | zero => simp [mwpNamesFrom]
    | succ j' =>
      simp only [mwpNamesFrom, List.mem_cons]
      right
      have harith : k + (j' + 1) = (k + 1) + j' := by omega
      rw [harith]
      exact ih (k + 1) j' (by simpa using h)

theorem getElemQ_inj_of_nodup {α : Type} :
    ∀ {l : List α}, l.Nodup → ∀ {i j : Nat} {a : α},
      l[i]? = some a → l[j]? = some a → i = j := by
  intro l
  induction l with
  | nil => intro _ i j a h1 _; simp at h1
  | cons x xs ih =>
    intro h i j a h1 h2
    rcases List.pairwise_cons.mp h with ⟨hx, hxs⟩
    cases i with
    | zero =>
      cases j with
      | zero => rfl
      | succ j' =>
        simp only [List.getElem?_cons_zero, Option.some.injEq] at h1
        simp only [List.getElem?_cons_succ] at h2
        exact absurd h1 (hx a (List.getElem?_mem h2))
    | succ i' =>
      cases j with
      | zero =>
        simp only [List.getElem?_cons_zero, Option.some.injEq] at h2
        simp only [List.getElem?_cons_succ] at h1
        exact absurd h2 (hx a (List.getElem?_mem h1))
      | succ j' =>
        simp only [List.getElem?_cons_succ] at h1 h2
        exact congrArg Nat.succ (ih hxs h1 h2)

theorem mem_mwpNamesFrom {x : PyStr} :
    ∀ {multi : List (List PyStr)} {k : Nat}, x ∈ mwpNamesFrom k multi →
      ∃ j, x = mwpName j := by
  intro multi
  induction multi with
  | nil => intro k h; simp [mwpNamesFrom] at h
  | cons r rest ih =>
    intro k h
    rcases List.mem_cons.mp h with rfl | h
    · exact ⟨k, rfl⟩
    · exact ih h

theorem mem_mwpRulesFrom {x : PyStr} :
    ∀ {multi : List (List PyStr)} {k : Nat}, x ∈ mwpRulesFrom k multi →
      ∃ j run, x = mwpRuleLine j run := by
  intro multi
  induction multi with
  | nil => intro k h; simp [mwpRulesFrom] at h
  | cons r rest ih =>
    intro k h
    rcases List.mem_cons.mp h with rfl | h
    · exact ⟨k, r, rfl⟩
    · exact ih h

theorem head?_mwpName (j : Nat) : (mwpName j).head? = some 'M' := rfl

theorem head?_mwpRuleLine (j : Nat) (run : List PyStr) :
    (mwpRuleLine j run).head? = some 'M' := rfl

theorem head?_quoteTok (w : PyStr) : (quoteTok w).head? = some '\'' := rfl

theorem lookupA_mem {m : List (PyStr × PyStr)} {k v : PyStr} :
    lookupA m k = some v → ∃ key, (key, v) ∈ m := by
  induction m with
  | nil => intro h; simp [lookupA] at h
  | cons kv rest ih =>
    intro h
    obtain ⟨k', v'⟩ := kv
    by_cases hk : k' = k
    · simp only [lookupA, if_pos hk, Option.some.injEq] at h
      exact ⟨k', by simp [h]⟩
    · simp only [lookupA, if_neg hk] at h
      obtain ⟨key, hkey⟩ := ih h
      exact ⟨key, List.mem_cons_of_mem _ hkey⟩

/-! ## Claim C9 -/

theorem loadRows_none :
    ∀ {rows : List Row},
      (∃ r ∈ rows, lookupA r (str "english") = none ∨ lookupA r (str "twi") = none) →
      ∀ d p, loadRows d p rows = none := by
  intro rows
  induction rows with
  | nil => rintro ⟨r, hr, _⟩; simp at hr
  | cons r rest ih =>
    rintro ⟨r', hr', hbad⟩ d p
    rcases List.mem_cons.mp hr' with rfl | hmem
    · cases h1 : lookupA r' (str "english") with
      | none => simp [loadRows, h1]
      | some e =>
        cases h2 : lookupA r' (str "twi") with
        | none => simp [loadRows, h1, h2]
        | some t =>
          rcases hbad with h | h
          · rw [h1] at h; exact absurd h (by simp)
          · rw [h2] at h; exact absurd h (by simp)
    · cases h1 : lookupA r (str "english") with
      | none => simp [loadRows, h1]
      | some e =>
        cases h2 : lookupA r (str "twi") with
        | none => simp [loadRows, h1, h2]
        | some t =>
          simp only [loadRows, h1, h2]
          by_cases htyp : pyLower (rowGetD r (str "type") (str "word")) = str "phrase"
          · rw [if_pos htyp]; exact ih ⟨r', hmem, hbad⟩ _ _
          · rw [if_neg htyp]; exact ih ⟨r', hmem, hbad⟩ _ _

/-- C9: `load_dict` never propagates an error to its caller: if the file is
absent it returns two empty mappings (with a warning print, an I/O effect
outside this embedding), on any other read error it returns two empty
mappings, a malformed row (one missing the `english` or `twi` column, which
raises `KeyError` in the row loop) also degrades to two empty mappings, and
in every case a pair of mappings is returned. -/
theorem C9_load_dict_never_fails :
    load_dict CsvFile.absent = ([], []) ∧
    load_dict CsvFile.ioError = ([], []) ∧
    (∀ rows, (∃ r ∈ rows, lookupA r (str "english") = none ∨
        lookupA r (str "twi") = none) →
      load_dict (CsvFile.content rows) = ([], [])) ∧
    (∀ f, ∃ d p, load_dict f = (d, p)) := by
  refine ⟨rfl, rfl, ?_, ?_⟩
  · intro rows h
    simp [load_dict, loadRows_none h [] []]
  · intro f
    exact ⟨(load_dict f).1, (load_dict f).2, rfl⟩

/-- Witness for C9 at a concrete malformed row (no `twi` column). -/
theorem C9_witness :
    load_dict (CsvFile.content [[(str "english", str "hi")]]) = ([], []) :=
  C9_load_dict_never_fails.2.2.1 [[(str "english", str "hi")]]
    ⟨[(str "english", str "hi")], by decide, Or.inr (by decide)⟩

/-! ## Claim C2 -/

/-- C2: for every sentence whose lowercasing is a key of the phrase map,
`translate` returns exactly the phrase map's value for that key, verbatim,
wherever the sentence occurs in the input list, for every engine (so the
grammar engine is never consulted) and with no post-processing applied. -/
theorem C2_phrase_short_circuit (t : TwiTranslator) (e : Engine) (s v : PyStr)
    (ss1 ss2 : List PyStr) (h : lookupA t.phrases (pyLower s) = some v) :
    t.translate e (ss1 ++ s :: ss2) = t.translate e ss1 ++ v :: t.translate e ss2 := by
  simp only [TwiTranslator.translate, List.map_append, List.map_cons]
  congr 2
  simp [translateOne, h]

/-- Witness for C2: a phrase hit returns the mapped value for any engine. -/
theorem C2_witness :
    (TwiTranslator.init [] [(str "how are you", str "wo ho te sɛn")] [] [] []).translate
        (fun _ => some [str "ENGINE OUTPUT"]) [str "How are you"]
      = [str "wo ho te sɛn"] :=
  C2_phrase_short_circuit
    (TwiTranslator.init [] [(str "how are you", str "wo ho te sɛn")] [] [] [])
    (fun _ => some [str "ENGINE OUTPUT"]) (str "How are you") (str "wo ho te sɛn")
    [] [] (by decide)

/-! ## Claim C4 -/

/-- C4 counterexample: constructing the translator on the spec's own example
sentence leaves the word dictionary empty — the detected multi-word name
`Kofi ne Kwame` and the single name `Accra` are *not* inserted as identity
entries, so neither is resolvable in the dictionary. -/
theorem C4_counterexample :
    (TwiTranslator.init [str "Kofi ne Kwame are going to Accra"] [] [] []
        (str ENG_GRAMMAR)).src_to_tgt_dictionary = [] ∧
    lookupA (TwiTranslator.init [str "Kofi ne Kwame are going to Accra"] [] [] []
        (str ENG_GRAMMAR)).src_to_tgt_dictionary (str "Kofi ne Kwame") = none ∧
    lookupA (TwiTranslator.init [str "Kofi ne Kwame are going to Accra"] [] [] []
        (str ENG_GRAMMAR)).src_to_tgt_dictionary (str "Accra") = none ∧
    extract_multiword_names [str "Kofi ne Kwame are going to Accra"]
      = [[str "Kofi", str "ne", str "Kwame"]] :=
  ⟨rfl, rfl, rfl, by decide⟩

/-- C4 amended: at construction time `TwiTranslator` stores the word
dictionary unchanged (no identity entries are injected); the detected
multi-word proper nouns are instead registered in the extended grammar as
`MWP_j` productions. -/
theorem C4_dictionary_unchanged (sentences : List PyStr)
    (phrases g dict : List (PyStr × PyStr)) (grammar : PyStr) :
    (TwiTranslator.init sentences phrases g dict grammar).src_to_tgt_dictionary = dict ∧
    (TwiTranslator.init sentences phrases g dict grammar).grammar_str
      = build_extended_grammar grammar sentences ∧
    ∀ run ∈ extract_multiword_names sentences, ∃ j,
      (extract_multiword_names sentences)[j]? = some run ∧
      mwpRuleLine j run ∈ build_extended_grammar_lines grammar sentences := by
  refine ⟨rfl, rfl, ?_⟩
  intro run hrun
  obtain ⟨j, hj1, hj2⟩ := mwpRulesFrom_mem (extract_multiword_names sentences) 0 hrun
  refine ⟨j, hj1, ?_⟩
  unfold build_extended_grammar_lines
  exact List.mem_append_right _ (by simpa using hj2)

/-- Witness for C4's amended claim at a concrete input. -/
theorem C4_witness : ∃ j,
    (extract_multiword_names [str "Kofi ne Kwame go"])[j]?
        = some [str "Kofi", str "ne", str "Kwame"] ∧
    mwpRuleLine j [str "Kofi", str "ne", str "Kwame"]
      ∈ build_extended_grammar_lines (str ENG_GRAMMAR) [str "Kofi ne Kwame go"] :=
  (C4_dictionary_unchanged [str "Kofi ne Kwame go"] [] [] [] (str ENG_GRAMMAR)).2.2
    [str "Kofi", str "ne", str "Kwame"] (by decide)

/-! ## Claim C5 -/

/-- C5: every input token that is a capitalized word and is not in the
exclusion list `{I, The, A, An}` appears, quoted, among the PROPN
alternatives of the grammar built from `ENG_GRAMMAR`, and the single-token
alternatives are strictly sorted lexicographically (hence deduplicated). -/
theorem C5_single_capitalized_tokens (ss : List PyStr) (s w : PyStr)
    (hs : s ∈ ss) (hw : w ∈ pySplit s) (hcap : isPropnToken w = true) :
    build_extended_grammar_lines (str ENG_GRAMMAR) ss =
      engPrefixLines ++ propnLineOf ss :: mwpRules (extract_multiword_names ss) ∧
    propnLineOf ss = str "PROPN -> " ++ joinSep (str " | ") (propnAlternatives ss) ∧
    quoteTok w ∈ propnAlternatives ss ∧
    List.Pairwise (fun a b => strLt a b = true) (singleCaps ss) := by
  refine ⟨buildLines_eng ss, rfl, ?_, pairwise_lt_singleCaps ss⟩
  exact List.mem_append_left _ (List.mem_map.mpr ⟨w, mem_singleCaps hs hw hcap, rfl⟩)

/-- Witness for C5 at a concrete sentence. -/
theorem C5_witness :
    quoteTok (str "Kumasi") ∈ propnAlternatives [str "Mary loves Kumasi"] :=
  (C5_single_capitalized_tokens [str "Mary loves Kumasi"] (str "Mary loves Kumasi")
    (str "Kumasi") (by decide) (by decide) (by decide)).2.2.1

/-! ## Claim C6 -/

/-- C6: every extracted multi-word capitalized run yields exactly one
auxiliary `MWP_j` production — `j` being the run's unique index in the
sorted, deduplicated run list — whose right-hand side is exactly the run's
quoted tokens in order, and the PROPN production line of the extended
grammar carries `MWP_j` as an additional alternative. -/
theorem C6_multiword_runs (ss : List PyStr) (run : List PyStr)
    (h : run ∈ extract_multiword_names ss) :
    ∃ j, (extract_multiword_names ss)[j]? = some run ∧
      (∀ i, (extract_multiword_names ss)[i]? = some run → i = j) ∧
      mwpRuleLine j run ∈ build_extended_grammar_lines (str ENG_GRAMMAR) ss ∧
      mwpRuleLine j run = mwpName j ++ str " -> " ++ joinSep [' '] (run.map quoteTok) ∧
      mwpName j ∈ propnAlternatives ss ∧
      propnLineOf ss ∈ build_extended_grammar_lines (str ENG_GRAMMAR) ss ∧
      List.Pairwise (fun a b => runLt a b = true) (extract_multiword_names ss) := by
  obtain ⟨j, hj1, hj2⟩ := mwpRulesFrom_mem (extract_multiword_names ss) 0 h
  have hjlen : j < (extract_multiword_names ss).length := by
    rcases List.getElem?_eq_some_iff.mp hj1 with ⟨hl, _⟩
    exact hl
  refine ⟨j, hj1, ?_, ?_, rfl, ?_, ?_, pairwise_lt_extract ss⟩
  · intro i hi
    exact getElemQ_inj_of_nodup (nodup_extract ss) hi hj1
  · rw [buildLines_eng]
    exact List.mem_append_right _ (List.mem_cons_of_mem _ (by simpa using hj2))
  · exact List.mem_append_right _
      (by simpa using mwpNamesFrom_mem (extract_multiword_names ss) 0 j hjlen)
  · rw [buildLines_eng]
    exact List.mem_append_right _ (List.mem_cons_self _ _)

/-- Witness for C6 at the spec's own example sentence. -/
theorem C6_witness :
    ∃ j, (extract_multiword_names [str "Kofi ne Kwame are going to Accra"])[j]?
        = some [str "Kofi", str "ne", str "Kwame"] ∧
      (∀ i, (extract_multiword_names [str "Kofi ne Kwame are going to Accra"])[i]?
          = some [str "Kofi", str "ne", str "Kwame"] → i = j) ∧
      mwpRuleLine j [str "Kofi", str "ne", str "Kwame"]
        ∈ build_extended_grammar_lines (str ENG_GRAMMAR)
            [str "Kofi ne Kwame are going to Accra"] ∧
      mwpRuleLine j [str "Kofi", str "ne", str "Kwame"]
        = mwpName j ++ str " -> "
            ++ joinSep [' '] ([str "Kofi", str "ne", str "Kwame"].map quoteTok) ∧
      mwpName j ∈ propnAlternatives [str "Kofi ne Kwame are going to Accra"] ∧
      propnLineOf [str "Kofi ne Kwame are going to Accra"]
        ∈ build_extended_grammar_lines (str ENG_GRAMMAR)
            [str "Kofi ne Kwame are going to Accra"] ∧
      List.Pairwise (fun a b => runLt a b = true)
        (extract_multiword_names [str "Kofi ne Kwame are going to Accra"]) :=
  C6_multiword_runs [str "Kofi ne Kwame are going to Accra"]
    [str "Kofi", str "ne", str "Kwame"] (by decide)

/-! ## Claim C10 -/

theorem propnLineOf_ne_anyword (ss : List PyStr) :
    propnLineOf ss ≠ str "PROPN -> ANY_WORD" := by
  intro he
  have hsplit : str "PROPN -> ANY_WORD" = str "PROPN -> " ++ str "ANY_WORD" := by decide
  rw [hsplit] at he
  have hjoin : joinSep (str " | ") (propnAlternatives ss) = str "ANY_WORD" :=
    List.append_cancel_left he
  cases halts : propnAlternatives ss with
  | nil => rw [halts] at hjoin; exact absurd hjoin (by decide)
  | cons x xs =>
    have hx : x.head? = some '\'' ∨ x.head? = some 'M' := by
      have hmem : x ∈ propnAlternatives ss := by rw [halts]; exact List.mem_cons_self _ _
      rcases List.mem_append.mp hmem with hq | hm
      · obtain ⟨w, _, rfl⟩ := List.mem_map.mp hq
        exact Or.inl (head?_quoteTok w)
      · obtain ⟨j, rfl⟩ := mem_mwpNamesFrom hm
        exact Or.inr (head?_mwpName j)
    have hxne : x ≠ [] := by
      rcases hx with h | h <;> { intro hnil; rw [hnil] at h; exact absurd h (by simp) }
    have hhead : (joinSep (str " | ") (x :: xs)).head? = x.head? := head?_joinSep hxne
    rw [halts] at hjoin
    rw [hjoin] at hhead
    have : (str "ANY_WORD").head? = some 'A' := rfl
    rw [this] at hhead
    rcases hx with h | h <;> rw [h] at hhead <;> exact absurd hhead (by decide)

/-- C10 (implicit): whenever the template has a `PROPN ->` line, the whole
right-hand side is replaced by exactly the derived alternatives — the
template's original `PROPN -> ANY_WORD` production never survives — and for
sentences with no qualifying capitalized token and no multi-word run the
resulting PROPN production is exactly `PROPN -> ` with an empty right-hand
side. -/
theorem C10_propn_rhs_replaced (ss : List PyStr) :
    build_extended_grammar_lines (str ENG_GRAMMAR) ss =
      engPrefixLines ++ propnLineOf ss :: mwpRules (extract_multiword_names ss) ∧
    str "PROPN -> ANY_WORD" ∉ build_extended_grammar_lines (str ENG_GRAMMAR) ss ∧
    (singleCaps ss = [] → extract_multiword_names ss = [] →
      propnLineOf ss = str "PROPN -> " ∧
      build_extended_grammar (str ENG_GRAMMAR) ss
        = joinNL (engPrefixLines ++ [str "PROPN -> "])) := by
  refine ⟨buildLines_eng ss, ?_, ?_⟩
  · rw [buildLines_eng]
    intro hmem
    rcases List.mem_append.mp hmem with hpre | hrest
    · exact absurd hpre (by decide)
    · rcases List.mem_cons.mp hrest with heq | hmwp
      · exact propnLineOf_ne_anyword ss heq.symm
      · obtain ⟨j, run, heq⟩ := mem_mwpRulesFrom hmwp
        have h1 : (str "PROPN -> ANY_WORD").head? = some 'P' := rfl
        rw [heq, head?_mwpRuleLine] at h1
        exact absurd h1 (by decide)
  · intro h1 h2
    have hline : propnLineOf ss = str "PROPN -> " := by
      simp [propnLineOf, propnAlternatives, h1, h2, mwpNames, mwpNamesFrom, joinSep]
    refine ⟨hline, ?_⟩
    unfold build_extended_grammar
    rw [buildLines_eng, hline, h2]
    rfl

/-- Witness for C10's conditional part at a concrete sentence. -/
theorem C10_witness :
    build_extended_grammar (str ENG_GRAMMAR) [str "the dog runs"]
      = joinNL (engPrefixLines ++ [str "PROPN -> "]) :=
  ((C10_propn_rhs_replaced [str "the dog runs"]).2.2 (by decide) (by decide)).2

/-! ## Claim C3 -/

/-- C3 counterexample: with no `PROPN ->` line in the template,
`build_extended_grammar` is not a byte-for-byte no-op — it still appends the
`MWP_j` productions for multi-word names (and strips the template). -/
theorem C3_counterexample :
    build_extended_grammar (str "S -> NP") [str "Kofi ne Kwame"]
        = str "S -> NP" ++ str "\nMWP_0 -> 'Kofi' 'ne' 'Kwame'" ∧
    build_extended_grammar (str "S -> NP") [str "Kofi ne Kwame"] ≠ str "S -> NP" :=
  ⟨by decide, by decide⟩

/-- C3 amended: if the (stripped) template has no line starting with the
marker `PROPN ->`, the template carries no surrounding whitespace,
and the sentences contain no multi-word capitalized run, then
`build_extended_grammar` returns the template unmodified, byte for byte. -/
theorem C3_no_propn_no_multi_noop (base : PyStr) (ss : List PyStr)
    (hno : ∀ l ∈ splitNL (pyStrip base), (str "PROPN ->").isPrefixOf l = false)
    (hstrip : pyStrip base = base)
    (hmulti : extract_multiword_names ss = []) :
    build_extended_grammar base ss = base := by
  unfold build_extended_grammar build_extended_grammar_lines
  rw [hmulti, replaceFirstPropn_id _ hno]
  show joinNL (splitNL (pyStrip base) ++ mwpRules []) = base
  rw [show mwpRules [] = [] from rfl, List.append_nil, joinNL_splitNL, hstrip]

/-- Witness for C3's amended claim. -/
theorem C3_witness :
    build_extended_grammar (str "S -> NP") [str "hello world"] = str "S -> NP" :=
  C3_no_propn_no_multi_noop (str "S -> NP") [str "hello world"]
    (by decide) (by decide) (by decide)

/-! ## Claim C7 -/

/-- C7 counterexample: applying grammar extension to its own output is not
idempotent when a multi-word name is present — the `MWP_0` production is
appended a second time. -/
theorem C7_counterexample :
    build_extended_grammar
        (build_extended_grammar (str ENG_GRAMMAR) [str "Kofi ne Kwame"])
        [str "Kofi ne Kwame"]
      = build_extended_grammar (str ENG_GRAMMAR) [str "Kofi ne Kwame"]
          ++ str "\nMWP_0 -> 'Kofi' 'ne' 'Kwame'" ∧
    build_extended_grammar
        (build_extended_grammar (str ENG_GRAMMAR) [str "Kofi ne Kwame"])
        [str "Kofi ne Kwame"]
      ≠ build_extended_grammar (str ENG_GRAMMAR) [str "Kofi ne Kwame"] :=
  ⟨by decide, by decide⟩

theorem singleCaps_no_ws {ss : List PyStr} {w : PyStr} (h : w ∈ singleCaps ss) :
    ∀ c ∈ w, isWs c = false := by
  have h1 := mem_sortLe.mp h
  have h2 := List.mem_dedup.mp h1
  rcases List.mem_filter.mp h2 with ⟨h3, _⟩
  obtain ⟨s, hs, hw⟩ := List.mem_flatMap.mp h3
  exact pySplit_no_ws s [] (by simp) w hw

theorem no_nl_quoteTok {w : PyStr} (h : ∀ c ∈ w, isWs c = false) :
    '\n' ∉ quoteTok w := by
  intro hm
  simp only [quoteTok, List.mem_cons, List.mem_append] at hm
  rcases hm with h1 | h1 | h1
  · exact absurd h1 (by decide)
  · have hh := h '\n' h1
    rw [show isWs '\n' = true from rfl] at hh
    exact absurd hh (by simp)
  · exact absurd h1 (by decide)

theorem quoteTok_ne_nil (w : PyStr) : quoteTok w ≠ [] := by simp [quoteTok]

theorem getLast?_quoteJoin {sep : PyStr} :
    ∀ (xs : List PyStr) (w : PyStr),
      (joinSep sep ((w :: xs).map quoteTok)).getLast? = some '\'' := by
  intro xs
  induction xs with
  | nil =>
    intro w
    show (quoteTok w).getLast? = some '\''
    show (('\'' :: w) ++ ['\'']).getLast? = some '\''
    rw [getLast?_append_right (by simp)]
    rfl
  | cons x rest ih =>
    intro w
    show (quoteTok w ++ sep ++ joinSep sep (quoteTok x :: rest.map quoteTok)).getLast?
        = some '\''
    rw [getLast?_append_right (joinSep_ne_nil (quoteTok_ne_nil x))]
    exact ih x

/-- C7 amended: grammar extension rebuilt from the *base* template is
deterministic, and applying it to its own output is idempotent precisely in
the absence of multi-word runs: if `extract_multiword_names ss = []` then
re-extending the extended grammar reproduces it byte for byte. -/
theorem C7_idempotent_without_multiwords (ss : List PyStr)
    (hmulti : extract_multiword_names ss = []) :
    build_extended_grammar (build_extended_grammar (str ENG_GRAMMAR) ss) ss
      = build_extended_grammar (str ENG_GRAMMAR) ss := by
  cases hsc : singleCaps ss with
  | nil =>
    have hP : propnLineOf ss = str "PROPN -> " := by
      simp [propnLineOf, propnAlternatives, hsc, hmulti, mwpNames, mwpNamesFrom, joinSep]
    have h1 : build_extended_grammar (str ENG_GRAMMAR) ss
        = joinNL (engPrefixLines ++ [str "PROPN -> "]) := by
      unfold build_extended_grammar
      rw [buildLines_eng, hP, hmulti]
      rfl
    rw [h1]
    unfold build_extended_grammar build_extended_grammar_lines
    rw [hmulti, hP]
    decide
  | cons w ws =>
    have halts : propnAlternatives ss = (w :: ws).map quoteTok := by
      rw [propnAlternatives, hsc, hmulti]
      simp [mwpNames, mwpNamesFrom]
    have hP : propnLineOf ss
        = str "PROPN -> " ++ joinSep (str " | ") ((w :: ws).map quoteTok) := by
      rw [propnLineOf, halts]
    have hPne : propnLineOf ss ≠ [] := by
      rw [hP]
      intro hnil
      rw [List.append_eq_nil] at hnil
      exact absurd hnil.1 (by decide)
    have hPpre : (str "PROPN ->").isPrefixOf (propnLineOf ss) = true := by
      rw [hP]
      show (str "PROPN ->").isPrefixOf
        (str "PROPN ->" ++ (' ' :: joinSep (str " | ") ((w :: ws).map quoteTok))) = true
      exact isPrefixOf_append_self _ _
    have hPlast : (propnLineOf ss).getLast? = some '\'' := by
      rw [hP, getLast?_append_right]
      · exact getLast?_quoteJoin ws w
      · exact joinSep_ne_nil (quoteTok_ne_nil w)
    have hPnl : '\n' ∉ propnLineOf ss := by
      rw [hP]
      intro hm
      rcases List.mem_append.mp hm with h1 | h1
      · exact absurd h1 (by decide)
      · refine absurd h1 (not_mem_joinSep (by decide) ?_)
        intro x hx
        obtain ⟨w', hw', rfl⟩ := List.mem_map.mp hx
        exact no_nl_quoteTok (singleCaps_no_ws (hsc ▸ hw'))
    have h1 : build_extended_grammar (str ENG_GRAMMAR) ss
        = joinNL (engPrefixLines ++ [propnLineOf ss]) := by
      unfold build_extended_grammar
      rw [buildLines_eng, hmulti]
      rfl
    have hhead : (joinNL (engPrefixLines ++ [propnLineOf ss])).head? = some 'S' := by
      have hc : engPrefixLines ++ [propnLineOf ss]
          = str "S   -> NP VP | QP | PHRASE" :: (engPrefixLines.tail ++ [propnLineOf ss]) := rfl
      rw [hc]
      show (joinSep ['\n'] (str "S   -> NP VP | QP | PHRASE"
        :: (engPrefixLines.tail ++ [propnLineOf ss]))).head? = some 'S'
      rw [head?_joinSep (show str "S   -> NP VP | QP | PHRASE" ≠ [] by decide)]
      rfl
    have hlast : (joinNL (engPrefixLines ++ [propnLineOf ss])).getLast? = some '\'' := by
      show (joinSep ['\n'] (engPrefixLines ++ [propnLineOf ss])).getLast? = some '\''
      rw [joinSep_append_single (by decide), getLast?_append_right hPne]
      exact hPlast
    have hstrip : pyStrip (joinNL (engPrefixLines ++ [propnLineOf ss]))
        = joinNL (engPrefixLines ++ [propnLineOf ss]) := by
      apply pyStrip_eq_self
      · intro c hc
        rw [hhead] at hc
        cases hc
        decide
      · intro c hc
        rw [hlast] at hc
        cases hc
        decide
    have hsplit : splitNL (joinNL (engPrefixLines ++ [propnLineOf ss]))
        = engPrefixLines ++ [propnLineOf ss] := by
      apply splitNL_joinNL (by simp)
      have hengnl : ∀ l ∈ engPrefixLines, '\n' ∉ l := by decide
      intro l hl
      rcases List.mem_append.mp hl with h2 | h2
      · exact hengnl l h2
      · rcases List.mem_singleton.mp h2 with rfl
        exact hPnl
    rw [h1]
    unfold build_extended_grammar build_extended_grammar_lines
    rw [hmulti, hstrip, hsplit,
      replaceFirstPropn_append [] (propnLineOf ss) (by decide) hPpre]
    show joinNL ((engPrefixLines ++ [propnLineOf ss]) ++ mwpRules []) = _
    rw [show mwpRules [] = [] from rfl, List.append_nil]

/-- Witness for C7's amended claim at a concrete sentence set. -/
theorem C7_witness :
    build_extended_grammar
        (build_extended_grammar (str ENG_GRAMMAR) [str "Accra is good"])
        [str "Accra is good"]
      = build_extended_grammar (str ENG_GRAMMAR) [str "Accra is good"] :=
  C7_idempotent_without_multiwords [str "Accra is good"] (by decide)

/-! ## Claim C1 -/

theorem capFirst_ne_nil {s : PyStr} (h : s ≠ []) : capFirst s ≠ [] := by
  cases s with
  | nil => exact absurd rfl h
  | cons c t => simp [capFirst]

theorem postprocess_ne_nil {tw : PyStr} (h : tw ≠ []) : postprocess tw ≠ [] := by
  unfold postprocess
  exact capFirst_ne_nil (pyReplace_ne_nil (pyReplace_ne_nil (pyReplace_ne_nil
    (pyReplace_ne_nil (pyReplace_ne_nil (pyReplace_ne_nil h (by decide)) (by decide))
      (by decide)) (by decide)) (by decide)) (by decide))

theorem fallbackWord_ne_nil (t : TwiTranslator) {w : PyStr} (hw : w ≠ [])
    (hp : ∀ kv ∈ t.phrases, kv.2 ≠ []) : fallbackWord t w ≠ [] := by
  show (match lookupA t.src_to_tgt_dictionary (pyLower w) with
    | some tw => if tw ≠ [] then tw else w
    | none =>
      match lookupA t.phrases (pyLower w) with
      | some v => v
      | none => w) ≠ []
  cases hd : lookupA t.src_to_tgt_dictionary (pyLower w) with
  | some tw =>
    show (if tw ≠ [] then tw else w) ≠ []
    by_cases htw : tw = []
    · rw [if_neg (by simp [htw])]
      exact hw
    · rw [if_pos htw]
      exact htw
  | none =>
    cases hph : lookupA t.phrases (pyLower w) with
    | some v =>
      show v ≠ []
      obtain ⟨key, hkv⟩ := lookupA_mem hph
      exact hp (key, v) hkv
    | none => exact hw

theorem dictionary_fallback_ne_nil (t : TwiTranslator) {s : PyStr}
    (hs : pySplit s ≠ []) (hp : ∀ kv ∈ t.phrases, kv.2 ≠ []) :
    t.dictionary_fallback s ≠ [] := by
  unfold TwiTranslator.dictionary_fallback
  apply pyReplace_ne_nil _ (by decide)
  apply pyReplace_ne_nil _ (by decide)
  cases hws : pySplit s with
  | nil => exact absurd hws hs
  | cons w rest =>
    show joinSep [' '] (fallbackWord t w :: rest.map (fallbackWord t)) ≠ []
    refine joinSep_ne_nil (fallbackWord_ne_nil t ?_ hp)
    refine pySplit_ne_nil s [] w ?_
    show w ∈ pySplit s
    rw [hws]
    exact List.mem_cons_self _ _

/-- C1 counterexample: a phrase entry whose target value is the empty string
(a CSV row with an empty `twi` cell) makes `translate` return the empty
string for a non-empty input sentence, refuting "never returns an empty
string". -/
theorem C1_counterexample :
    (TwiTranslator.init [] [(str "hi", [])] [] [] []).translate
        (fun _ => none) [str "Hi"] = [[]] ∧
    ([] : PyStr) ∈ (TwiTranslator.init [] [(str "hi", [])] [] [] []).translate
        (fun _ => none) [str "Hi"] :=
  ⟨by decide, by decide⟩

/-- C1 amended: `translate` returns exactly one output string per input
sentence and never raises (every engine failure is caught and answered by
the word-by-word dictionary fallback, in which a token absent from both the
word dictionary and the phrase map is passed through unchanged); each output
is non-empty provided each input sentence has at least one token, every
phrase-map value is non-empty, and the engine never returns an empty first
string. -/
theorem C1_translate_total (t : TwiTranslator) (e : Engine) (ss : List PyStr)
    (hs : ∀ s ∈ ss, pySplit s ≠ [])
    (hp : ∀ kv ∈ t.phrases, kv.2 ≠ [])
    (he : ∀ s r rest, e s = some (r :: rest) → r ≠ []) :
    (t.translate e ss).length = ss.length ∧
    (∀ out ∈ t.translate e ss, out ≠ []) ∧
    (∀ s, lookupA t.phrases (pyLower s) = none → e s = none →
      translateOne t e s = t.dictionary_fallback s) ∧
    (∀ w, lookupA t.src_to_tgt_dictionary (pyLower w) = none →
      lookupA t.phrases (pyLower w) = none → fallbackWord t w = w) := by
  refine ⟨by simp [TwiTranslator.translate], ?_, ?_, ?_⟩
  · intro out hout
    obtain ⟨s, hsmem, rfl⟩ := List.mem_map.mp hout
    unfold translateOne
    cases hph : lookupA t.phrases (pyLower s) with
    | some v =>
      obtain ⟨key, hkv⟩ := lookupA_mem hph
      exact hp (key, v) hkv
    | none =>
      cases heng : e s with
      | none => exact dictionary_fallback_ne_nil t (hs s hsmem) hp
      | some raw =>
        cases raw with
        | nil =>
          refine postprocess_ne_nil ?_
          intro hnil
          have hnil' : s = [] := hnil
          exact hs s hsmem (by rw [hnil']; rfl)
        | cons r rest => exact postprocess_ne_nil (he s r rest heng)
  · intro s h1 h2
    simp [translateOne, h1, h2]
  · intro w h1 h2
    simp [fallbackWord, h1, h2]

/-- Witness for C1's amended claim at a concrete input. -/
theorem C1_witness :
    ((TwiTranslator.init [] [] [] [] []).translate (fun _ => none)
        [str "hello"]).length = 1 ∧
    ∀ out ∈ (TwiTranslator.init [] [] [] [] []).translate (fun _ => none)
        [str "hello"], out ≠ [] := by
  have h := C1_translate_total (TwiTranslator.init [] [] [] [] []) (fun _ => none)
    [str "hello"] (by decide) (by decide) (fun s r rest hr => by exact absurd hr (by simp))
  exact ⟨h.1, h.2.1⟩

/-! ## Claim C8 -/

theorem mapR1_nil : mapR1 [] = [] := rfl

theorem mapR1_single (w : PyStr) : mapR1 [w] = [w] := rfl

theorem mapR1_cons₂ (w y : PyStr) (rest : List PyStr) :
    mapR1 (w :: y :: rest)
      = (if w = str "I" then str "Me" else w) :: mapR1 (y :: rest) := rfl

theorem joinSep_cons {sep a : PyStr} {L : List PyStr} (h : L ≠ []) :
    joinSep sep (a :: L) = a ++ sep ++ joinSep sep L := by
  cases L with
  | nil => exact absurd rfl h
  | cons x rest => rfl

theorem mapR1_ne_nil {L : List PyStr} (h : L ≠ []) : mapR1 L ≠ [] := by
  cases L with
  | nil => exact absurd rfl h
  | cons w rest =>
    cases rest with
    | nil => rw [mapR1_single]; simp
    | cons y r => rw [mapR1_cons₂]; simp

theorem isPrefixOf_cons_ne {a b : Char} {p' t : PyStr} (h : a ≠ b) :
    (a :: p').isPrefixOf (b :: t) = false := by
  simp [List.isPrefixOf, h]

theorem r1_join :
    ∀ (toks : List PyStr), (∀ w ∈ toks, w = str "I" ∨ 'I' ∉ w) →
      pyReplace (str "I ") (str "Me ") (joinSep [' '] toks)
        = joinSep [' '] (mapR1 toks) := by
  intro toks
  induction toks with
  | nil => intro _; rfl
  | cons w rest ih =>
    intro htok
    cases rest with
    | nil =>
      show pyReplace (str "I ") (str "Me ") w = joinSep [' '] (mapR1 [w])
      rw [mapR1_single]
      show pyReplace (str "I ") (str "Me ") w = w
      rcases htok w (List.mem_cons_self _ _) with rfl | hni
      · decide
      · exact pyReplace_noop_head _ hni
    | cons y rest' =>
      have hj : joinSep [' '] (w :: y :: rest')
          = w ++ (' ' :: joinSep [' '] (y :: rest')) := by
        rw [joinSep_cons (by simp), List.append_assoc]
        rfl
      rw [hj]
      have hrest : ∀ u ∈ y :: rest', u = str "I" ∨ 'I' ∉ u :=
        fun u hu => htok u (List.mem_cons_of_mem _ hu)
      rcases htok w (List.mem_cons_self _ _) with rfl | hni
      · show pyReplace (str "I ") (str "Me ") (str "I " ++ joinSep [' '] (y :: rest'))
            = joinSep [' '] (mapR1 (str "I" :: y :: rest'))
        rw [pyReplace_pat_head _ (by decide), ih hrest, mapR1_cons₂, if_pos rfl,
          joinSep_cons (mapR1_ne_nil (by simp)), List.append_assoc]
        rfl
      · have hwne : w ≠ str "I" := fun heq => hni (heq ▸ (by decide : 'I' ∈ str "I"))
        have hstep : pyReplace (str "I ") (str "Me ")
              (w ++ (' ' :: joinSep [' '] (y :: rest')))
            = w ++ pyReplace (str "I ") (str "Me ") (' ' :: joinSep [' '] (y :: rest')) :=
          pyReplace_append_left _ _ hni
        have hpre : (str "I ").isPrefixOf (' ' :: joinSep [' '] (y :: rest')) = false :=
          isPrefixOf_cons_ne (by decide)
        rw [hstep, pyReplace_cons_neg _ hpre, ih hrest, mapR1_cons₂, if_neg hwne,
          joinSep_cons (mapR1_ne_nil (by simp)), List.append_assoc]
        rfl

theorem mapR1_append_single :
    ∀ (init : List PyStr) (y : PyStr),
      mapR1 (init ++ [y])
        = init.map (fun w => if w = str "I" then str "Me" else w) ++ [y] := by
  intro init
  induction init with
  | nil => intro y; rfl
  | cons w init' ih =>
    intro y
    cases init' with
    | nil =>
      show mapR1 [w, y] = _
      rw [mapR1_cons₂, mapR1_single]
      rfl
    | cons z zs =>
      show mapR1 (w :: ((z :: zs) ++ [y])) = _
      rw [show w :: ((z :: zs) ++ [y]) = w :: z :: (zs ++ [y]) from rfl, mapR1_cons₂,
        show z :: (zs ++ [y]) = (z :: zs) ++ [y] from rfl, ih y]
      rfl

theorem r2_boundary : ∀ {A : PyStr}, 'I' ∉ A →
    pyReplace (str " I") (str " Me") (A ++ str " I") = A ++ str " Me" := by
  intro A
  induction A with
  | nil => intro _; decide
  | cons c A' ih =>
    intro h
    have hpre : (str " I").isPrefixOf (c :: (A' ++ str " I")) = false := by
      cases hI : (str " I").isPrefixOf (c :: (A' ++ str " I")) with
      | false => rfl
      | true =>
        obtain ⟨u, hu⟩ := isPrefixOf_iff.mp hI
        have hu' : c :: (A' ++ str " I") = ' ' :: ('I' :: u) := hu
        have h2 : A' ++ str " I" = 'I' :: u := (List.cons.injEq _ _ _ _).mp hu' |>.2
        cases A' with
        | nil =>
          have hsp : (' ' : Char) = 'I' := (List.cons.injEq _ _ _ _).mp h2 |>.1
          exact absurd hsp (by decide)
        | cons d A'' =>
          have hd : d = 'I' := (List.cons.injEq _ _ _ _).mp h2 |>.1
          exact (h (hd ▸ List.mem_cons_of_mem c (List.mem_cons_self d A''))).elim
    show pyReplace (str " I") (str " Me") (c :: (A' ++ str " I"))
        = c :: (A' ++ str " Me")
    rw [pyReplace_cons_neg _ hpre, ih (fun hm => h (List.mem_cons_of_mem _ hm))]

theorem noop_spaceI {s : PyStr} (r : PyStr) (h : 'I' ∉ s) :
    pyReplace (str " I") r s = s := pyReplace_noop_second r h

theorem noop_space_i {s : PyStr} (r : PyStr) (h : 'i' ∉ s) :
    pyReplace (str " i ") r s = s := pyReplace_noop_second r h

theorem noop_space_i_comma {s : PyStr} (r : PyStr) (h : 'i' ∉ s) :
    pyReplace (str " i,") r s = s := pyReplace_noop_second r h

theorem noop_space_i_dot {s : PyStr} (r : PyStr) (h : 'i' ∉ s) :
    pyReplace (str " i.") r s = s := pyReplace_noop_second r h

theorem noop_space_i_bang {s : PyStr} (r : PyStr) (h : 'i' ∉ s) :
    pyReplace (str " i!") r s = s := pyReplace_noop_second r h

theorem r2_join (init : List PyStr) (y : PyStr)
    (hnotI : init ++ [y] ≠ [str "I"])
    (htok : ∀ w ∈ init ++ [y], w = str "I" ∨ 'I' ∉ w) :
    pyReplace (str " I") (str " Me") (joinSep [' '] (mapR1 (init ++ [y])))
      = joinSep [' '] (fixI (init ++ [y])) := by
  rw [mapR1_append_single]
  have hmapnoI : ∀ x ∈ init.map (fun w => if w = str "I" then str "Me" else w),
      'I' ∉ x := by
    intro x hx
    obtain ⟨w, hw, rfl⟩ := List.mem_map.mp hx
    by_cases hwI : w = str "I"
    · rw [if_pos hwI]; decide
    · rw [if_neg hwI]
      rcases htok w (List.mem_append_left _ hw) with h1 | h1
      · exact absurd h1 hwI
      · exact h1
  by_cases hyI : y = str "I"
  · subst hyI
    have hinit_ne : init ≠ [] := fun h0 => hnotI (by rw [h0]; rfl)
    have hmapne : init.map (fun w => if w = str "I" then str "Me" else w) ≠ [] := by
      simp [hinit_ne]
    have hAnoI : 'I' ∉ joinSep [' ']
        (init.map (fun w => if w = str "I" then str "Me" else w)) :=
      not_mem_joinSep (by decide) hmapnoI
    rw [joinSep_append_single hmapne]
    have hL : joinSep [' '] (init.map (fun w => if w = str "I" then str "Me" else w))
          ++ [' '] ++ str "I"
        = joinSep [' '] (init.map (fun w => if w = str "I" then str "Me" else w))
          ++ str " I" := by
      rw [List.append_assoc]
      rfl
    rw [hL, r2_boundary hAnoI]
    have hR : fixI (init ++ [str "I"])
        = init.map (fun w => if w = str "I" then str "Me" else w) ++ [str "Me"] := by
      simp [fixI]
    rw [hR, joinSep_append_single hmapne, List.append_assoc]
    rfl
  · have hynoI : 'I' ∉ y := by
      rcases htok y (List.mem_append_right _ (List.mem_singleton_self _)) with h1 | h1
      · exact absurd h1 hyI
      · exact h1
    have hnoI : 'I' ∉ joinSep [' ']
        (init.map (fun w => if w = str "I" then str "Me" else w) ++ [y]) := by
      refine not_mem_joinSep (by decide) ?_
      intro x hx
      rcases List.mem_append.mp hx with h1 | h1
      · exact hmapnoI x h1
      · rw [List.mem_singleton.mp h1]
        exact hynoI
    rw [noop_spaceI _ hnoI]
    congr 1
    simp [fixI, hyI]

/-- C8 counterexample: the textual substitutions are not exactly "standalone
`I` tokens": a raw engine output that is exactly `I` is left unchanged, and
the first `I` of `II go` (not a standalone token) is rewritten. -/
theorem C8_counterexample :
    (TwiTranslator.init [] [] [] [] []).translate (fun _ => some [str "I"]) [str "x"]
      = [str "I"] ∧
    str "I" ≠ str "Me" ∧
    (TwiTranslator.init [] [] [] [] []).translate (fun _ => some [str "II go"])
      [str "x"] = [str "IMe go"] :=
  ⟨by decide, by decide, by decide⟩

/-- C8 amended: in the engine-success path the substitutions rewrite the
output token-wise when every token is either exactly `I` or free of
`i`/`I`: every token `I` becomes `Me` and the first letter is capitalized —
except that a raw output consisting of the single token `I` is left as `I`
(no trailing or leading space matches), and an `I` followed by a space is
rewritten even inside a larger token. -/
theorem C8_pronoun_rewrites (t : TwiTranslator) (e : Engine) (s : PyStr)
    (toks : List PyStr)
    (hph : lookupA t.phrases (pyLower s) = none)
    (he : e s = some [joinSep [' '] toks])
    (hne : toks ≠ [])
    (hnotI : toks ≠ [str "I"])
    (htok : ∀ w ∈ toks, w = str "I" ∨ ('I' ∉ w ∧ 'i' ∉ w)) :
    translateOne t e s = capFirst (joinSep [' '] (fixI toks)) := by
  have h1 : translateOne t e s = postprocess (joinSep [' '] toks) := by
    simp [translateOne, hph, he]
  rw [h1]
  unfold postprocess
  rw [r1_join toks (fun w hw => (htok w hw).imp id And.left)]
  rcases List.eq_nil_or_concat toks with rfl | ⟨init, y, rfl⟩
  · exact absurd rfl hne
  · rw [List.concat_eq_append] at hnotI htok ⊢
    rw [r2_join init y hnotI (fun w hw => (htok w hw).imp id And.left)]
    have hnoi : 'i' ∉ joinSep [' '] (fixI (init ++ [y])) := by
      refine not_mem_joinSep (by decide) ?_
      intro x hx
      simp only [fixI] at hx
      obtain ⟨w, hw, rfl⟩ := List.mem_map.mp hx
      by_cases hwI : w = str "I"
      · rw [if_pos hwI]; decide
      · rw [if_neg hwI]
        rcases htok w hw with h2 | h2
        · exact absurd h2 hwI
        · exact h2.2
    rw [noop_space_i _ hnoi, noop_space_i_comma _ hnoi, noop_space_i_dot _ hnoi,
      noop_space_i_bang _ hnoi]

/-- Witness for C8's amended claim at a concrete raw output. -/
theorem C8_witness :
    translateOne (TwiTranslator.init [] [] [] [] [])
        (fun _ => some [str "I love Accra"]) (str "x") = str "Me love Accra" :=
  (C8_pronoun_rewrites (TwiTranslator.init [] [] [] [] [])
    (fun _ => some [str "I love Accra"]) (str "x")
    [str "I", str "love", str "Accra"]
    (by decide) (by decide) (by decide) (by decide) (by decide)).trans (by decide)
